import Mathlib

/-!
Verification of the quote-fetch-and-typewriter utility of the MyHome
homepage script (src/script.js).  JavaScript strings are modelled as
`List Char` (one entry per Unicode scalar); the regular-expression
replacements of `fetchDailyQuote` are modelled as the corresponding
character-level functions, and the timer-driven parts (fetch timeout,
typewriter reveal chain, cursor blink) as explicit event/state machines.
-/

/-- The character set matched by JavaScript's `\s` regex class, which is
also the set stripped by `String.prototype.trim`. -/
def isJsWhitespace (c : Char) : Bool :=
  [0x09, 0x0A, 0x0B, 0x0C, 0x0D, 0x20, 0xA0, 0x1680,
   0x2028, 0x2029, 0x202F, 0x205F, 0x3000, 0xFEFF].contains c.toNat
  || (decide (0x2000 ≤ c.toNat) && decide (c.toNat ≤ 0x200A))

/-- `quote.trim()` — strip leading and trailing whitespace. -/
def trimList (l : List Char) : List Char :=
  ((l.dropWhile isJsWhitespace).reverse.dropWhile isJsWhitespace).reverse

/-- `.replace(/[\r\n\t]/g, ' ')` (script.js line 1180). -/
def replaceCtl (l : List Char) : List Char :=
  l.map fun c => if c = '\r' ∨ c = '\n' ∨ c = '\t' then ' ' else c

/-- Helper for `.replace(/\s+/g, ' ')`: the flag records whether the
previous character belonged to a whitespace run already replaced by a
single space (such characters are dropped). -/
def collapseAux : Bool → List Char → List Char
  | _, [] => []
  | prevWs, c :: rest =>
    if isJsWhitespace c then
      if prevWs then collapseAux true rest else ' ' :: collapseAux true rest
    else c :: collapseAux false rest

/-- `.replace(/\s+/g, ' ')` (script.js line 1181): every maximal run of
whitespace becomes a single space. -/
def collapseWs (l : List Char) : List Char := collapseAux false l

/-- The straight double-quote character, U+0022. -/
def dquoteChar : Char := Char.ofNat 34

/-- The straight single-quote character, U+0027. -/
def squoteChar : Char := Char.ofNat 39

/-- `.replace(/[""]/g, '"')` (script.js line 1182).  In the source the
character class holds the straight ASCII double quote (twice), so the
replacement maps the straight double quote to itself. -/
def replaceDq (l : List Char) : List Char :=
  l.map fun c => if c = dquoteChar then dquoteChar else c

/-- `.replace(/['']/g, "'")` (script.js line 1183).  In the source the
character class holds the straight ASCII single quote (twice), so the
replacement maps the straight single quote to itself. -/
def replaceSq (l : List Char) : List Char :=
  l.map fun c => if c = squoteChar then squoteChar else c

/-- The full sanitisation chain of `fetchDailyQuote`
(script.js lines 1179-1183). -/
def sanitize (l : List Char) : List Char :=
  replaceSq (replaceDq (collapseWs (replaceCtl (trimList l))))

/-- `const cutPoints = ['.', '!', '?', '。', '！', '？']`
(script.js line 1189). -/
def cutPoints : List Char := ['.', '!', '?', '。', '！', '？']

/-- The scan loop `for (let i = maxLength - 10; i < maxLength; i++)`
(script.js lines 1192-1197), started at `i`; returns the first position
in `[i, 60)` holding a cut point, if any. -/
def findCutFrom (q : List Char) (i : Nat) : Option Nat :=
  if h : i < 60 then
    if cutPoints.contains (q.getD i ' ') then some i
    else findCutFrom q (i + 1)
  else none
termination_by 60 - i

/-- The length-limiting step of `fetchDailyQuote`
(script.js lines 1186-1203): inputs of length at most 60 pass through;
longer inputs are cut after the first cut point in positions `[50, 60)`,
or hard-truncated to 57 characters plus `...`. -/
def truncateQuote (q : List Char) : List Char :=
  if 60 < q.length then
    match findCutFrom q 50 with
    | some i => q.take (i + 1)
    | none => q.take 57 ++ ['.', '.', '.']
  else q

/-- The sanitize-and-truncate step as a whole: raw response text to
DisplayQuote. -/
def displayQuote (raw : List Char) : List Char :=
  truncateQuote (sanitize raw)

/-- Sanitised-output invariant: every whitespace character is a plain
space. -/
def wsOk (l : List Char) : Prop :=
  ∀ c ∈ l, isJsWhitespace c = true → c = ' '

/-- Sanitised-output invariant: no two adjacent whitespace characters. -/
def noRun (l : List Char) : Prop :=
  List.Chain' (fun a b => isJsWhitespace a = false ∨ isJsWhitespace b = false) l

/-- The first character, if any, is not whitespace. -/
def headNW (l : List Char) : Prop :=
  ∀ c ∈ l.head?, isJsWhitespace c = false

/-- The last character, if any, is not whitespace. -/
def lastNW (l : List Char) : Prop :=
  ∀ c ∈ l.getLast?, isJsWhitespace c = false

/-- The failure taxonomy of the quote fetcher. -/
inductive FetchErrorReason
  | timeout
  | httpStatus (code : Nat)
  | emptyBody
  | network
deriving DecidableEq, Repr

/-- A settled fetch: the returned DisplayQuote or the thrown error. -/
inductive FetchOutcome
  | ok (q : List Char)
  | error (e : FetchErrorReason)
deriving DecidableEq, Repr

/-- An HTTP response as observed by `fetchDailyQuote`: the `ok` flag,
the numeric status, and the text body. -/
structure HttpResponse where
  ok : Bool
  status : Nat
  body : List Char
deriving DecidableEq, Repr

/-- The response-processing path of `fetchDailyQuote` after `fetch`
resolves (script.js lines 1166-1207): a non-success status throws, a
body that is empty after trimming throws, and otherwise the sanitised
and truncated quote is returned. -/
def processResponse (r : HttpResponse) : FetchOutcome :=
  if r.ok = false then FetchOutcome.error (FetchErrorReason.httpStatus r.status)
  else if trimList r.body = [] then FetchOutcome.error FetchErrorReason.emptyBody
  else FetchOutcome.ok (truncateQuote (sanitize r.body))

/-- The events that can reach the `fetchDailyQuote` coroutine: the 5000 ms
timeout timer firing (script.js lines 1146-1149), the awaited `fetch`
resolving with a response, or the awaited `fetch` rejecting with a network
error. -/
inductive FetchEvent
  | timerFire
  | responseArrive (r : HttpResponse)
  | networkFail
deriving DecidableEq, Repr

/-- The observable state of one `fetchDailyQuote` call: how it settled
(if it has), whether the abort controller fired, and whether the timeout
timer is still pending. -/
structure FetchProcState where
  settled : Option FetchOutcome
  aborted : Bool
  timerPending : Bool
deriving DecidableEq, Repr

/-- State at the start of a call: not settled, not aborted, the 5000 ms
timer pending. -/
def fetchInit : FetchProcState :=
  { settled := none, aborted := false, timerPending := true }

/-- One event-loop step of `fetchDailyQuote`.  A firing timer aborts the
in-flight request, which makes the awaited `fetch` reject; the catch block
runs `clearTimeout` and rethrows, settling the call with the timeout error
(script.js lines 1146-1149 and 1209-1213).  A response or network failure
arriving after the abort (or after settlement) finds the promise already
rejected and has no effect; otherwise it clears the timer
(`clearTimeout(timeoutId)`, line 1165 or 1210) and settles the call. -/
def fetchStep (s : FetchProcState) : FetchEvent → FetchProcState
  | FetchEvent.timerFire =>
    if s.timerPending = false then s
    else if s.settled.isSome then { s with timerPending := false }
    else { settled := some (FetchOutcome.error FetchErrorReason.timeout),
           aborted := true, timerPending := false }
  | FetchEvent.responseArrive r =>
    if s.aborted = true ∨ s.settled.isSome then s
    else { settled := some (processResponse r), aborted := false,
           timerPending := false }
  | FetchEvent.networkFail =>
    if s.aborted = true ∨ s.settled.isSome then s
    else { settled := some (FetchOutcome.error FetchErrorReason.network),
           aborted := false, timerPending := false }

/-- Run a `fetchDailyQuote` call through a list of events. -/
def runFetch (evs : List FetchEvent) : FetchProcState :=
  evs.foldl fetchStep fetchInit

/-- The event order determined by the response delay: the timeout timer is
due at 5000 ms, so a response delayed more than 5000 ms is preceded by the
timer firing. -/
def scheduleEvents (respDelay : Nat) (r : HttpResponse) : List FetchEvent :=
  if 5000 < respDelay then [FetchEvent.timerFire, FetchEvent.responseArrive r]
  else [FetchEvent.responseArrive r, FetchEvent.timerFire]

/-- The punctuation class `/[，。！？、；：]/` of `typeNextChar`
(script.js line 1243). -/
def punctChars : List Char := ['，', '。', '！', '？', '、', '；', '：']

/-- The ASCII-letter class `/[a-zA-Z]/` (script.js line 1245). -/
def isAsciiLetter (c : Char) : Bool :=
  decide (('a' ≤ c ∧ c ≤ 'z') ∨ ('A' ≤ c ∧ c ≤ 'Z'))

/-- The per-tick delay computation of `typeNextChar`
(script.js lines 1240-1250), with `ρ` standing for the `Math.random()`
draw in `[0, 1)`: space 50, punctuation 200, ASCII letter
`ρ*30 + 70`, anything else `ρ*40 + 90`. -/
def charDelay (c : Char) (ρ : ℚ) : ℚ :=
  if c = ' ' then 50
  else if c ∈ punctChars then 200
  else if isAsciiLetter c = true then ρ * 30 + 70
  else ρ * 40 + 90

/-- A pending `setTimeout(typeNextChar, delay)` reveal timer: the session
that scheduled it, the text captured by the `typeNextChar` closure, and
the `currentIndex` the closure will use. -/
structure TWTimer where
  sid : Nat
  text : List Char
  idx : Nat
deriving DecidableEq, Repr

/-- The target element together with the pending reveal timers: its text
content, the timers scheduled by all sessions so far, and whether some
completed session has started the cursor-blink phase. -/
structure TWState where
  content : List Char
  timers : List TWTimer
  blinkStarted : Bool
deriving DecidableEq, Repr

/-- One call of `typeNextChar` (script.js lines 1235-1268): while
characters remain it writes `text.substring(0, currentIndex + 1)` to the
element and schedules the next tick; once the index reaches the text
length it starts the cursor-blink phase. -/
def typeNextCharStep (sid : Nat) (text : List Char) (idx : Nat)
    (s : TWState) : TWState :=
  if idx < text.length then
    { content := text.take (idx + 1),
      timers := s.timers ++ [⟨sid, text, idx + 1⟩],
      blinkStarted := s.blinkStarted }
  else
    { s with blinkStarted := true }

/-- `startTypewriterAnimation(element, text)` (script.js lines 1217-1276):
`gsap.killTweensOf(element)` kills tween animations only — no pending
`setTimeout` reveal timer of an earlier session is cancelled — the
element content is cleared, and `typeNextChar` runs once synchronously. -/
def renderStart (sid : Nat) (text : List Char) (s : TWState) : TWState :=
  typeNextCharStep sid text 0
    { content := [], timers := s.timers, blinkStarted := s.blinkStarted }

/-- A pending reveal timer firing: it is removed from the pending set and
its captured `typeNextChar` closure runs. -/
def fireTimer (t : TWTimer) (s : TWState) : TWState :=
  if t ∈ s.timers then
    typeNextCharStep t.sid t.text t.idx { s with timers := s.timers.erase t }
  else s

/-- The border style of the target element: the cursor bar or nothing. -/
inductive Border
  | cursor
  | none
deriving DecidableEq, Repr

/-- The state of the cursor-blink phase (`startCursorBlink`,
script.js lines 1279-1305): the `isVisible` flag, the `blinkCount`
counter, and the element's current border. -/
structure BlinkState where
  isVisible : Bool
  blinkCount : Nat
  border : Border
deriving DecidableEq, Repr

/-- One call of the `blink` interval callback (script.js lines
1283-1296): set the border from the current visibility, toggle the
visibility, bump the counter, and force the border off once the counter
has passed 120. -/
def blinkTick (s : BlinkState) : BlinkState :=
  if 120 < s.blinkCount + 1 then
    { isVisible := !s.isVisible, blinkCount := s.blinkCount + 1,
      border := Border.none }
  else
    { isVisible := !s.isVisible, blinkCount := s.blinkCount + 1,
      border := if s.isVisible then Border.cursor else Border.none }

/-- State on entering the blink phase: `isVisible = true`,
`blinkCount = 0`. -/
def blinkInit : BlinkState := ⟨true, 0, Border.none⟩

/-- The 30000 ms `setTimeout` handler (script.js lines 1301-1304): clear
the interval and the border. -/
def stopBlink (s : BlinkState) : BlinkState := { s with border := Border.none }

/-- The blink phase observed `t` milliseconds after `startCursorBlink`:
interval ticks are due at 500, 1000, …, and the interval is cleared by
the 30000 ms timeout (the tick also due at 30000 was scheduled earlier
and fires first), so exactly `min (t / 500) 60` ticks have run by time
`t`. -/
def blinkStateAt (t : Nat) : BlinkState :=
  if 30000 ≤ t then stopBlink (blinkTick^[min (t / 500) 60] blinkInit)
  else blinkTick^[min (t / 500) 60] blinkInit

theorem findCutFrom_bounds_aux (q : List Char) :
    ∀ n i0 i, 60 - i0 ≤ n → findCutFrom q i0 = some i →
      i0 ≤ i ∧ i < 60 ∧ cutPoints.contains (q.getD i ' ') = true := by
  intro n
  induction n with
  | zero =>
    intro i0 i hle hfind
    have h60 : ¬ i0 < 60 := by omega
    rw [findCutFrom, dif_neg h60] at hfind
    cases hfind
  | succ n ih =>
    intro i0 i hle hfind
    rw [findCutFrom] at hfind
    by_cases h60 : i0 < 60
    · rw [dif_pos h60] at hfind
      by_cases hcut : cutPoints.contains (q.getD i0 ' ') = true
      · rw [if_pos hcut] at hfind
        cases hfind
        exact ⟨Nat.le_refl _, h60, hcut⟩
      · rw [if_neg hcut] at hfind
        have h := ih (i0 + 1) i (by omega) hfind
        exact ⟨by omega, h.2.1, h.2.2⟩
    · rw [dif_neg h60] at hfind
      cases hfind

theorem findCutFrom_bounds (q : List Char) (i0 i : Nat)
    (h : findCutFrom q i0 = some i) :
    i0 ≤ i ∧ i < 60 ∧ cutPoints.contains (q.getD i ' ') = true :=
  findCutFrom_bounds_aux q (60 - i0) i0 i (Nat.le_refl _) h

/-- C1: for every input string to the sanitize-and-truncate step of the
quote fetcher, the resulting DisplayQuote has length at most 60
characters. -/
theorem displayQuote_length_le (raw : List Char) :
    (displayQuote raw).length ≤ 60 := by
  unfold displayQuote truncateQuote
  by_cases hlen : 60 < (sanitize raw).length
  · rw [if_pos hlen]
    cases hfind : findCutFrom (sanitize raw) 50 with
    | some i =>
      have hb := findCutFrom_bounds (sanitize raw) 50 i hfind
      simp only [List.length_take]
      exact le_trans (Nat.min_le_left _ _) (by omega)
    | none =>
      simp only [List.length_append, List.length_take]
      rw [Nat.min_eq_left (by omega)]
      decide
  · rw [if_neg hlen]
    omega

theorem findCutFrom_eq_some_aux (q : List Char) :
    ∀ n i0 i, 60 - i0 ≤ n → i0 ≤ i → i < 60 →
      cutPoints.contains (q.getD i ' ') = true →
      (∀ j, i0 ≤ j → j < i → cutPoints.contains (q.getD j ' ') = false) →
      findCutFrom q i0 = some i := by
  intro n
  induction n with
  | zero => intro i0 i hle hi0 hi60 _ _; omega
  | succ n ih =>
    intro i0 i hle hi0 hi60 hcut hfirst
    rw [findCutFrom, dif_pos (by omega : i0 < 60)]
    by_cases heq : i0 = i
    · subst heq
      rw [if_pos hcut]
    · have hlt : i0 < i := by omega
      have hnot : cutPoints.contains (q.getD i0 ' ') = false :=
        hfirst i0 (Nat.le_refl _) hlt
      rw [hnot]
      simp only [Bool.false_eq_true, if_false]
      exact ih (i0 + 1) i (by omega) (by omega) hi60 hcut
        (fun j hj1 hj2 => hfirst j (by omega) hj2)

theorem findCutFrom_eq_none_aux (q : List Char) :
    ∀ n i0, 60 - i0 ≤ n →
      (∀ j, i0 ≤ j → j < 60 → cutPoints.contains (q.getD j ' ') = false) →
      findCutFrom q i0 = none := by
  intro n
  induction n with
  | zero =>
    intro i0 hle _
    rw [findCutFrom, dif_neg (by omega : ¬ i0 < 60)]
  | succ n ih =>
    intro i0 hle hnone
    by_cases h60 : i0 < 60
    · rw [findCutFrom, dif_pos h60, hnone i0 (Nat.le_refl _) h60]
      simp only [Bool.false_eq_true, if_false]
      exact ih (i0 + 1) (by omega) (fun j hj1 hj2 => hnone j (by omega) hj2)
    · rw [findCutFrom, dif_neg h60]

/-- C2: for every input longer than 60 characters, the truncation step
scans positions 50 through 59 (0-indexed) for the first cut point
(`. ! ? 。 ！ ？`); if one is found at position `i` the result is the
prefix `[0, i+1)` ending exactly at that mark, and if none is found the
result is exactly the first 57 characters followed by `...`, for a total
length of exactly 60. -/
theorem truncateQuote_spec (q : List Char) (hlen : 60 < q.length) :
    (∀ i, 50 ≤ i → i < 60 → cutPoints.contains (q.getD i ' ') = true →
      (∀ j, 50 ≤ j → j < i → cutPoints.contains (q.getD j ' ') = false) →
      truncateQuote q = q.take (i + 1) ∧ (truncateQuote q).length = i + 1) ∧
    ((∀ j, 50 ≤ j → j < 60 → cutPoints.contains (q.getD j ' ') = false) →
      truncateQuote q = q.take 57 ++ ['.', '.', '.'] ∧
      (truncateQuote q).length = 60) := by
  constructor
  · intro i hi50 hi60 hcut hfirst
    have hfind : findCutFrom q 50 = some i :=
      findCutFrom_eq_some_aux q 10 50 i (by omega) hi50 hi60 hcut hfirst
    have htr : truncateQuote q = q.take (i + 1) := by
      rw [truncateQuote, if_pos hlen, hfind]
    refine ⟨htr, ?_⟩
    rw [htr]
    simp only [List.length_take]
    omega
  · intro hnone
    have hfind : findCutFrom q 50 = none :=
      findCutFrom_eq_none_aux q 10 50 (by omega) hnone
    have htr : truncateQuote q = q.take 57 ++ ['.', '.', '.'] := by
      rw [truncateQuote, if_pos hlen, hfind]
    refine ⟨htr, ?_⟩
    rw [htr]
    simp only [List.length_append, List.length_take]
    rw [Nat.min_eq_left (by omega)]
    decide

theorem truncateQuote_spec_witness :
    60 < (List.replicate 61 'a').length ∧
    truncateQuote (List.replicate 61 'a') =
      List.replicate 57 'a' ++ ['.', '.', '.'] := by
  have hj : ∀ j, 50 ≤ j → j < 60 →
      cutPoints.contains ((List.replicate 61 'a').getD j ' ') = false := by
    intro j hj1 hj2
    interval_cases j <;> decide
  have h := (truncateQuote_spec (List.replicate 61 'a') (by decide)).2 hj
  refine ⟨by decide, ?_⟩
  rw [h.1]
  decide

/-- C3: the sanitisation scenario `"Hello\n\nWorld" → "Hello World"`
holds, but the quote-normalisation steps of the source are identity maps
(their regex classes contain only the straight ASCII quotes), so a
smart-quoted input passes through `sanitize` unchanged instead of being
normalised to straight quotes as the specification claims. -/
theorem sanitize_smart_quotes_unchanged :
    sanitize ("Hello\n\nWorld".data) = "Hello World".data ∧
    sanitize (Char.ofNat 0x201C :: "Hello".data ++ [Char.ofNat 0x201D]) =
      Char.ofNat 0x201C :: "Hello".data ++ [Char.ofNat 0x201D] ∧
    Char.ofNat 0x201C :: "Hello".data ++ [Char.ofNat 0x201D] ≠
      dquoteChar :: "Hello".data ++ [dquoteChar] := by
  refine ⟨by decide, by decide, by decide⟩

theorem headNW_reverse_iff (l : List Char) : headNW l.reverse ↔ lastNW l := by
  unfold headNW lastNW
  rw [List.head?_reverse]

theorem wsOk_cons (c : Char) (l : List Char) (h : wsOk (c :: l)) : wsOk l :=
  fun d hd hw => h d (List.mem_cons_of_mem c hd) hw

theorem wsOk_collapseAux (l : List Char) : ∀ b, wsOk (collapseAux b l) := by
  induction l with
  | nil => intro b; intro c hc; cases hc
  | cons c rest ih =>
    intro b
    by_cases hws : isJsWhitespace c
    · cases b with
      | true =>
        simp only [collapseAux, hws, if_true]
        exact ih true
      | false =>
        simp only [collapseAux, hws, if_true, if_false]
        intro d hd hdw
        rcases List.mem_cons.mp hd with h | h
        · exact h
        · exact ih true d h hdw
    · simp only [collapseAux, hws, Bool.false_eq_true, if_false]
      intro d hd hdw
      rcases List.mem_cons.mp hd with h | h
      · subst h; exact absurd hdw (by simp [hws])
      · exact ih false d h hdw

theorem headNW_collapseAux_true (l : List Char) :
    headNW (collapseAux true l) := by
  induction l with
  | nil => intro c hc; cases hc
  | cons c rest ih =>
    by_cases hws : isJsWhitespace c
    · simp only [collapseAux, hws, if_true]
      exact ih
    · simp only [collapseAux, hws, Bool.false_eq_true, if_false]
      intro d hd
      cases hd
      simpa using hws

theorem collapseAux_ws_true {c : Char} (rest : List Char)
    (h : isJsWhitespace c = true) :
    collapseAux true (c :: rest) = collapseAux true rest := by
  simp [collapseAux, h]

theorem collapseAux_ws_false {c : Char} (rest : List Char)
    (h : isJsWhitespace c = true) :
    collapseAux false (c :: rest) = ' ' :: collapseAux true rest := by
  simp [collapseAux, h]

theorem collapseAux_nws {c : Char} (b : Bool) (rest : List Char)
    (h : isJsWhitespace c = false) :
    collapseAux b (c :: rest) = c :: collapseAux false rest := by
  simp [collapseAux, h]

theorem noRun_collapseAux (l : List Char) : ∀ b, noRun (collapseAux b l) := by
  induction l with
  | nil => intro b; exact List.chain'_nil
  | cons c rest ih =>
    intro b
    by_cases hws : isJsWhitespace c = true
    · cases b with
      | true =>
        rw [collapseAux_ws_true rest hws]
        exact ih true
      | false =>
        rw [collapseAux_ws_false rest hws]
        unfold noRun
        rw [List.chain'_cons']
        refine ⟨?_, ih true⟩
        intro y hy
        exact Or.inr (headNW_collapseAux_true rest y hy)
    · rw [collapseAux_nws b rest (by simpa using hws)]
      unfold noRun
      rw [List.chain'_cons']
      refine ⟨?_, ih false⟩
      intro y _
      exact Or.inl (by simpa using hws)

theorem collapseAux_true_eq_nil (l : List Char)
    (h : collapseAux true l = []) : ∀ c ∈ l, isJsWhitespace c = true := by
  induction l with
  | nil => intro c hc; cases hc
  | cons c rest ih =>
    by_cases hws : isJsWhitespace c
    · simp only [collapseAux, hws, if_true] at h
      intro d hd
      rcases List.mem_cons.mp hd with h' | h'
      · subst h'; exact hws
      · exact ih h d h'
    · simp only [collapseAux, hws, Bool.false_eq_true, if_false] at h
      cases h

theorem collapseAux_false_cons_ne_nil (c : Char) (rest : List Char) :
    collapseAux false (c :: rest) ≠ [] := by
  by_cases hws : isJsWhitespace c
  · simp only [collapseAux, hws, if_true, if_false]
    exact List.cons_ne_nil _ _
  · simp only [collapseAux, hws, Bool.false_eq_true, if_false]
    exact List.cons_ne_nil _ _

theorem lastNW_collapseAux (l : List Char) :
    ∀ b, lastNW l → lastNW (collapseAux b l) := by
  induction l with
  | nil =>
    intro b _ c hc
    simp only [collapseAux] at hc
    cases hc
  | cons c rest ih =>
    intro b hlast
    cases rest with
    | nil =>
      by_cases hws : isJsWhitespace c = true
      · have hc := hlast c (by simp)
        rw [hc] at hws
        cases hws
      · rw [collapseAux_nws b [] (by simpa using hws)]
        intro d hd
        rw [Option.mem_def] at hd
        simp only [collapseAux] at hd
        have hdc : d = c := by
          have h1 : ([c] : List Char).getLast? = some c := rfl
          rw [h1] at hd
          injection hd with h2
          exact h2.symm
        subst hdc
        simpa using hws
    | cons e rest' =>
      have hlast' : lastNW (e :: rest') := by
        intro x hx
        apply hlast
        rw [Option.mem_def] at hx ⊢
        rw [List.getLast?_cons_cons]
        exact hx
      by_cases hws : isJsWhitespace c = true
      · cases b with
        | true =>
          rw [collapseAux_ws_true _ hws]
          exact ih true hlast'
        | false =>
          rw [collapseAux_ws_false _ hws]
          cases hE : collapseAux true (e :: rest') with
          | nil =>
            have hall := collapseAux_true_eq_nil (e :: rest') hE
            have hne : (e :: rest') ≠ [] := List.cons_ne_nil _ _
            have hwsl := hall _ (List.getLast_mem hne)
            have hnw := hlast' ((e :: rest').getLast hne)
              (by rw [Option.mem_def]; exact List.getLast?_eq_getLast _ hne)
            rw [hnw] at hwsl
            cases hwsl
          | cons y Y =>
            intro d hd
            rw [Option.mem_def, List.getLast?_cons_cons] at hd
            have hrec := ih true hlast'
            rw [hE] at hrec
            exact hrec d (by rw [Option.mem_def]; exact hd)
      · rw [collapseAux_nws b _ (by simpa using hws)]
        cases hE : collapseAux false (e :: rest') with
        | nil => exact absurd hE (collapseAux_false_cons_ne_nil e rest')
        | cons y Y =>
          intro d hd
          rw [Option.mem_def, List.getLast?_cons_cons] at hd
          have hrec := ih false hlast'
          rw [hE] at hrec
          exact hrec d (by rw [Option.mem_def]; exact hd)

theorem headNW_collapseAux_false (l : List Char) (h : headNW l) :
    headNW (collapseAux false l) := by
  cases l with
  | nil =>
    intro c hc
    simp only [collapseAux] at hc
    cases hc
  | cons c rest =>
    have hc : isJsWhitespace c = false := h c (by simp)
    rw [collapseAux_nws false rest hc]
    intro d hd
    rw [Option.mem_def] at hd
    injection hd with h'
    subst h'
    exact hc

theorem collapseAux_id (l : List Char) :
    ∀ b, wsOk l → noRun l → (b = true → headNW l) →
      collapseAux b l = l := by
  induction l with
  | nil => intro b _ _ _; rfl
  | cons c rest ih =>
    intro b hws hrun hhd
    unfold noRun at hrun
    rw [List.chain'_cons'] at hrun
    by_cases hcw : isJsWhitespace c = true
    · have hc : c = ' ' := hws c (by simp) hcw
      cases b with
      | true =>
        have hnw := hhd rfl c (by simp)
        rw [hnw] at hcw
        cases hcw
      | false =>
        rw [collapseAux_ws_false rest hcw, hc]
        congr 1
        refine ih true (wsOk_cons _ _ hws) hrun.2 ?_
        intro _ y hy
        rcases hrun.1 y hy with h | h
        · rw [h] at hcw; cases hcw
        · exact h
    · rw [collapseAux_nws b rest (by simpa using hcw)]
      congr 1
      exact ih false (wsOk_cons _ _ hws) hrun.2 (fun h => absurd h (by decide))

theorem replaceCtl_id (l : List Char) (h : wsOk l) : replaceCtl l = l := by
  induction l with
  | nil => rfl
  | cons c rest ih =>
    unfold replaceCtl
    rw [List.map_cons]
    have hc : (if c = '\r' ∨ c = '\n' ∨ c = '\t' then ' ' else c) = c := by
      by_cases hcc : c = '\r' ∨ c = '\n' ∨ c = '\t'
      · exfalso
        have hwsc : isJsWhitespace c = true := by
          rcases hcc with h1 | h1 | h1 <;> subst h1 <;> decide
        have hsp := h c (by simp) hwsc
        rcases hcc with h1 | h1 | h1 <;> rw [hsp] at h1 <;>
          exact absurd h1 (by decide)
      · rw [if_neg hcc]
    rw [hc]
    have := ih (wsOk_cons _ _ h)
    unfold replaceCtl at this
    rw [this]

theorem replaceDq_id (l : List Char) : replaceDq l = l := by
  have hf : (fun c => if c = dquoteChar then dquoteChar else c) = (id : Char → Char) := by
    funext c
    by_cases h : c = dquoteChar
    · rw [if_pos h, h]
      rfl
    · rw [if_neg h]
      rfl
  unfold replaceDq
  rw [hf, List.map_id]

theorem replaceSq_id (l : List Char) : replaceSq l = l := by
  have hf : (fun c => if c = squoteChar then squoteChar else c) = (id : Char → Char) := by
    funext c
    by_cases h : c = squoteChar
    · rw [if_pos h, h]
      rfl
    · rw [if_neg h]
      rfl
  unfold replaceSq
  rw [hf, List.map_id]

theorem headNW_dropWhile (l : List Char) :
    headNW (l.dropWhile isJsWhitespace) := by
  induction l with
  | nil => intro c hc; cases hc
  | cons c rest ih =>
    by_cases h : isJsWhitespace c = true
    · rw [List.dropWhile_cons, if_pos h]
      exact ih
    · rw [List.dropWhile_cons, if_neg (by simpa using h)]
      intro d hd
      rw [Option.mem_def] at hd
      injection hd with h'
      subst h'
      simpa using h

theorem exists_dropWhile_append (p : Char → Bool) (l : List Char) :
    ∃ t, l = t ++ l.dropWhile p := by
  induction l with
  | nil => exact ⟨[], rfl⟩
  | cons c rest ih =>
    by_cases h : p c = true
    · obtain ⟨t, ht⟩ := ih
      refine ⟨c :: t, ?_⟩
      rw [List.dropWhile_cons, if_pos h, List.cons_append, ← ht]
    · refine ⟨[], ?_⟩
      rw [List.dropWhile_cons, if_neg (by simpa using h), List.nil_append]

theorem headNW_trimList (l : List Char) : headNW (trimList l) := by
  have hd : headNW (l.dropWhile isJsWhitespace) := headNW_dropWhile l
  obtain ⟨t, ht⟩ :=
    exists_dropWhile_append isJsWhitespace (l.dropWhile isJsWhitespace).reverse
  have hsplit : l.dropWhile isJsWhitespace = trimList l ++ t.reverse := by
    have hrev := congrArg List.reverse ht
    rw [List.reverse_reverse, List.reverse_append] at hrev
    exact hrev
  cases hE : trimList l with
  | nil =>
    intro c hc
    cases hc
  | cons y Y =>
    intro c hc
    rw [Option.mem_def] at hc
    injection hc with h'
    subst h'
    have hhead : (l.dropWhile isJsWhitespace).head? = some y := by
      rw [hsplit, hE, List.cons_append]
      rfl
    exact hd y (by rw [Option.mem_def]; exact hhead)

theorem lastNW_trimList (l : List Char) : lastNW (trimList l) := by
  rw [← headNW_reverse_iff]
  unfold trimList
  rw [List.reverse_reverse]
  exact headNW_dropWhile _

theorem headNW_replaceCtl (l : List Char) (h : headNW l) :
    headNW (replaceCtl l) := by
  cases l with
  | nil => intro c hc; cases hc
  | cons c rest =>
    have hc : isJsWhitespace c = false := h c (by simp)
    have hne : ¬(c = '\r' ∨ c = '\n' ∨ c = '\t') := by
      rintro (h1 | h1 | h1) <;> subst h1 <;> exact absurd hc (by decide)
    unfold replaceCtl
    rw [List.map_cons, if_neg hne]
    intro d hd
    rw [Option.mem_def] at hd
    injection hd with h'
    subst h'
    exact hc

theorem lastNW_replaceCtl (l : List Char) (h : lastNW l) :
    lastNW (replaceCtl l) := by
  rw [← headNW_reverse_iff] at h ⊢
  have hstep := headNW_replaceCtl l.reverse h
  unfold replaceCtl at hstep ⊢
  rw [List.map_reverse] at hstep
  exact hstep

theorem trimList_id (l : List Char) (h1 : headNW l) (h2 : lastNW l) :
    trimList l = l := by
  have hd1 : l.dropWhile isJsWhitespace = l := by
    cases l with
    | nil => rfl
    | cons c rest =>
      have hc := h1 c (by simp)
      rw [List.dropWhile_cons, if_neg (by simp [hc])]
  have h2' : headNW l.reverse := (headNW_reverse_iff l).mpr h2
  have hd2 : l.reverse.dropWhile isJsWhitespace = l.reverse := by
    cases hR : l.reverse with
    | nil => rfl
    | cons c rest =>
      have hc := h2' c (by rw [hR]; simp)
      rw [List.dropWhile_cons, if_neg (by simp [hc])]
  unfold trimList
  rw [hd1, hd2, List.reverse_reverse]

theorem sanitize_eq_collapse (l : List Char) :
    sanitize l = collapseWs (replaceCtl (trimList l)) := by
  unfold sanitize
  rw [replaceDq_id, replaceSq_id]

theorem sanitize_invariants (l : List Char) :
    wsOk (sanitize l) ∧ noRun (sanitize l) ∧
      headNW (sanitize l) ∧ lastNW (sanitize l) := by
  rw [sanitize_eq_collapse]
  unfold collapseWs
  refine ⟨wsOk_collapseAux _ false, noRun_collapseAux _ false, ?_, ?_⟩
  · exact headNW_collapseAux_false _ (headNW_replaceCtl _ (headNW_trimList l))
  · exact lastNW_collapseAux _ false (lastNW_replaceCtl _ (lastNW_trimList l))

/-- C4: sanitisation is idempotent — applying `sanitize` to an
already-sanitised string returns it unchanged. -/
theorem sanitize_idempotent (l : List Char) :
    sanitize (sanitize l) = sanitize l := by
  obtain ⟨h1, h2, h3, h4⟩ := sanitize_invariants l
  conv_lhs => rw [sanitize_eq_collapse (sanitize l)]
  rw [trimList_id _ h3 h4, replaceCtl_id _ h1]
  unfold collapseWs
  exact collapseAux_id _ false h1 h2 (fun h => absurd h (by decide))

/-- C5: the quote fetcher fails with an empty-body error exactly when the
response has a success status but its text body is empty or entirely
whitespace after trimming; in particular the empty body yields the
empty-body error. -/
theorem processResponse_emptyBody_iff :
    (∀ r : HttpResponse,
      processResponse r = FetchOutcome.error FetchErrorReason.emptyBody ↔
        (r.ok = true ∧ trimList r.body = [])) ∧
    processResponse ⟨true, 200, []⟩
      = FetchOutcome.error FetchErrorReason.emptyBody := by
  constructor
  · intro r
    unfold processResponse
    cases hok : r.ok with
    | false => simp
    | true =>
      by_cases htrim : trimList r.body = []
      · simp [htrim]
      · simp [htrim]
  · rfl

theorem fetchStep_timerFire (s : FetchProcState) :
    fetchStep s FetchEvent.timerFire =
      if s.timerPending = false then s
      else if s.settled.isSome then { s with timerPending := false }
      else { settled := some (FetchOutcome.error FetchErrorReason.timeout),
             aborted := true, timerPending := false } := rfl

theorem fetchStep_responseArrive (s : FetchProcState) (r : HttpResponse) :
    fetchStep s (FetchEvent.responseArrive r) =
      if s.aborted = true ∨ s.settled.isSome then s
      else { settled := some (processResponse r), aborted := false,
             timerPending := false } := rfl

theorem fetchStep_networkFail (s : FetchProcState) :
    fetchStep s FetchEvent.networkFail =
      if s.aborted = true ∨ s.settled.isSome then s
      else { settled := some (FetchOutcome.error FetchErrorReason.network),
             aborted := false, timerPending := false } := rfl

theorem foldl_fetchStep_frozen (evs : List FetchEvent) :
    ∀ s : FetchProcState, s.settled.isSome = true → s.timerPending = false →
      evs.foldl fetchStep s = s := by
  induction evs with
  | nil => intro s _ _; rfl
  | cons e rest ih =>
    intro s hsome hpend
    have hstep : fetchStep s e = s := by
      cases e with
      | timerFire =>
        rw [fetchStep_timerFire, if_pos hpend]
      | responseArrive r =>
        rw [fetchStep_responseArrive, if_pos (Or.inr hsome)]
      | networkFail =>
        rw [fetchStep_networkFail, if_pos (Or.inr hsome)]
    rw [List.foldl_cons, hstep]
    exact ih s hsome hpend

/-- C6: with the 5000 ms client-side timeout, a response arriving later
than 5000 ms is preceded by the timer firing, which aborts the request and
settles the call with the timeout error; the late response — and anything
after it — produces no further effect, so the call never settles to
success afterwards. -/
theorem fetch_timeout_final (respDelay : Nat) (r : HttpResponse)
    (extra : List FetchEvent) (h : 5000 < respDelay) :
    ((scheduleEvents respDelay r ++ extra).foldl fetchStep fetchInit).settled
        = some (FetchOutcome.error FetchErrorReason.timeout) ∧
    ((scheduleEvents respDelay r ++ extra).foldl fetchStep fetchInit).aborted
        = true := by
  have hsched : scheduleEvents respDelay r
      = [FetchEvent.timerFire, FetchEvent.responseArrive r] := by
    unfold scheduleEvents
    rw [if_pos h]
  have hfixed : (scheduleEvents respDelay r ++ extra).foldl fetchStep fetchInit
      = { settled := some (FetchOutcome.error FetchErrorReason.timeout),
          aborted := true, timerPending := false } := by
    rw [hsched]
    rw [List.cons_append, List.cons_append, List.nil_append,
      List.foldl_cons, List.foldl_cons]
    have h1 : fetchStep fetchInit FetchEvent.timerFire
        = { settled := some (FetchOutcome.error FetchErrorReason.timeout),
            aborted := true, timerPending := false } := rfl
    rw [h1]
    have h2 : fetchStep
        { settled := some (FetchOutcome.error FetchErrorReason.timeout),
          aborted := true, timerPending := false }
        (FetchEvent.responseArrive r)
        = { settled := some (FetchOutcome.error FetchErrorReason.timeout),
            aborted := true, timerPending := false } := rfl
    rw [h2]
    exact foldl_fetchStep_frozen extra _ rfl rfl
  rw [hfixed]
  exact ⟨rfl, rfl⟩

theorem fetch_timeout_final_witness :
    5000 < 5001 ∧
    ((scheduleEvents 5001 ⟨true, 200, ['a']⟩
        ++ [FetchEvent.responseArrive ⟨true, 200, ['a']⟩]).foldl
          fetchStep fetchInit).settled
      = some (FetchOutcome.error FetchErrorReason.timeout) :=
  ⟨by decide,
    (fetch_timeout_final 5001 ⟨true, 200, ['a']⟩
      [FetchEvent.responseArrive ⟨true, 200, ['a']⟩] (by decide)).1⟩

theorem fetchStep_timer_invariant (e : FetchEvent) (s : FetchProcState)
    (h : s.settled.isSome = true → s.timerPending = false) :
    (fetchStep s e).settled.isSome = true →
      (fetchStep s e).timerPending = false := by
  cases e with
  | timerFire =>
    rw [fetchStep_timerFire]
    by_cases hp : s.timerPending = false
    · rw [if_pos hp]
      intro hs
      exact h hs
    · rw [if_neg hp]
      by_cases hs : s.settled.isSome
      · rw [if_pos hs]
        intro _
        rfl
      · rw [if_neg hs]
        intro _
        rfl
  | responseArrive r =>
    rw [fetchStep_responseArrive]
    by_cases hg : s.aborted = true ∨ s.settled.isSome
    · rw [if_pos hg]
      exact h
    · rw [if_neg hg]
      intro _
      rfl
  | networkFail =>
    rw [fetchStep_networkFail]
    by_cases hg : s.aborted = true ∨ s.settled.isSome
    · rw [if_pos hg]
      exact h
    · rw [if_neg hg]
      intro _
      rfl

theorem foldl_fetchStep_timer_invariant (evs : List FetchEvent) :
    ∀ s : FetchProcState,
      (s.settled.isSome = true → s.timerPending = false) →
      (evs.foldl fetchStep s).settled.isSome = true →
        (evs.foldl fetchStep s).timerPending = false := by
  induction evs with
  | nil => intro s h; exact h
  | cons e rest ih =>
    intro s h
    rw [List.foldl_cons]
    exact ih (fetchStep s e) (fetchStep_timer_invariant e s h)

/-- C10: on every settlement path of the quote fetcher — success,
non-success status, empty body, network error, or timeout abort — the
5000 ms timeout timer is no longer pending once the call has settled. -/
theorem fetch_timer_cleared_on_settle (evs : List FetchEvent)
    (h : (runFetch evs).settled.isSome = true) :
    (runFetch evs).timerPending = false := by
  unfold runFetch
  exact foldl_fetchStep_timer_invariant evs fetchInit
    (fun hs => by cases hs) h

theorem fetch_timer_cleared_on_settle_witness :
    (runFetch [FetchEvent.timerFire]).settled.isSome = true ∧
    (runFetch [FetchEvent.timerFire]).timerPending = false :=
  ⟨by decide, fetch_timer_cleared_on_settle [FetchEvent.timerFire] (by decide)⟩

/-- C7: on every reveal tick, the delay before the next tick is
determined by the just-revealed character's class: space 50 ms fixed,
punctuation 200 ms fixed, ASCII letter a random delay in `[70, 100)` ms,
any other character a random delay in `[90, 130)` ms. -/
theorem charDelay_classes (c : Char) (ρ : ℚ) (h0 : 0 ≤ ρ) (h1 : ρ < 1) :
    (c = ' ' → charDelay c ρ = 50) ∧
    (c ≠ ' ' → c ∈ punctChars → charDelay c ρ = 200) ∧
    (c ≠ ' ' → c ∉ punctChars → isAsciiLetter c = true →
      70 ≤ charDelay c ρ ∧ charDelay c ρ < 100) ∧
    (c ≠ ' ' → c ∉ punctChars → isAsciiLetter c = false →
      90 ≤ charDelay c ρ ∧ charDelay c ρ < 130) := by
  refine ⟨?_, ?_, ?_, ?_⟩
  · intro h
    unfold charDelay
    rw [if_pos h]
  · intro hns hp
    unfold charDelay
    rw [if_neg hns, if_pos hp]
  · intro hns hnp hl
    unfold charDelay
    rw [if_neg hns, if_neg hnp, if_pos hl]
    constructor <;> nlinarith
  · intro hns hnp hl
    unfold charDelay
    rw [if_neg hns, if_neg hnp, if_neg (by simp [hl])]
    constructor <;> nlinarith

theorem charDelay_classes_witness :
    (0 : ℚ) ≤ 1 / 2 ∧ (1 / 2 : ℚ) < 1 ∧
    (70 ≤ charDelay 'a' (1 / 2) ∧ charDelay 'a' (1 / 2) < 100) :=
  ⟨by norm_num, by norm_num,
    (charDelay_classes 'a' (1 / 2) (by norm_num) (by norm_num)).2.2.1
      (by decide) (by decide) (by decide)⟩

/-- C8 fails on the code: after a second render starts on the same
target, a pending reveal timer of the first session is still pending, and
when it fires it writes the first session's text over the second
session's content. -/
theorem render_cancel_claim_false :
    (∃ t ∈ (renderStart 2 ['X', 'Y']
        (renderStart 1 ['A', 'B'] ⟨[], [], false⟩)).timers, t.sid = 1) ∧
    (fireTimer ⟨1, ['A', 'B'], 1⟩
        (renderStart 2 ['X', 'Y']
          (renderStart 1 ['A', 'B'] ⟨[], [], false⟩))).content
      = ['A', 'B'] := by
  exact ⟨by decide, by decide⟩

/-- C8 (amended): a renderer call kills tweens and clears the target's
content, but does not cancel a prior session's pending reveal timers:
after a second render starts on the same target, the first session's
pending reveal timer is still pending, and firing it writes a prefix of
the first session's text to the target. -/
theorem renderStart_leaves_prior_timer (s : TWState) (sid1 sid2 : Nat)
    (t1 t2 : List Char) (h1 : 1 < t1.length) :
    (⟨sid1, t1, 1⟩ : TWTimer)
        ∈ (renderStart sid2 t2 (renderStart sid1 t1 s)).timers ∧
    (fireTimer ⟨sid1, t1, 1⟩
        (renderStart sid2 t2 (renderStart sid1 t1 s))).content
      = t1.take 2 := by
  have hs1 : renderStart sid1 t1 s
      = { content := t1.take 1, timers := s.timers ++ [⟨sid1, t1, 1⟩],
          blinkStarted := s.blinkStarted } := by
    unfold renderStart typeNextCharStep
    rw [if_pos (by omega : 0 < t1.length)]
  by_cases h2 : 0 < t2.length
  · have hs2 : renderStart sid2 t2 (renderStart sid1 t1 s)
        = { content := t2.take 1,
            timers := (s.timers ++ [⟨sid1, t1, 1⟩]) ++ [⟨sid2, t2, 1⟩],
            blinkStarted := s.blinkStarted } := by
      rw [hs1]
      unfold renderStart typeNextCharStep
      rw [if_pos h2]
    have hmem : (⟨sid1, t1, 1⟩ : TWTimer)
        ∈ (renderStart sid2 t2 (renderStart sid1 t1 s)).timers := by
      rw [hs2]
      simp
    refine ⟨hmem, ?_⟩
    unfold fireTimer
    rw [if_pos hmem]
    unfold typeNextCharStep
    rw [if_pos h1]
  · have hs2 : renderStart sid2 t2 (renderStart sid1 t1 s)
        = { content := [],
            timers := s.timers ++ [⟨sid1, t1, 1⟩],
            blinkStarted := true } := by
      rw [hs1]
      unfold renderStart typeNextCharStep
      rw [if_neg (by omega : ¬ 0 < t2.length)]
    have hmem : (⟨sid1, t1, 1⟩ : TWTimer)
        ∈ (renderStart sid2 t2 (renderStart sid1 t1 s)).timers := by
      rw [hs2]
      simp
    refine ⟨hmem, ?_⟩
    unfold fireTimer
    rw [if_pos hmem]
    unfold typeNextCharStep
    rw [if_pos h1]

theorem renderStart_leaves_prior_timer_witness :
    1 < (['H', 'i', '!'] : List Char).length ∧
    ((⟨1, ['H', 'i', '!'], 1⟩ : TWTimer)
        ∈ (renderStart 2 ['O', 'K']
            (renderStart 1 ['H', 'i', '!'] ⟨[], [], false⟩)).timers ∧
      (fireTimer ⟨1, ['H', 'i', '!'], 1⟩
          (renderStart 2 ['O', 'K']
            (renderStart 1 ['H', 'i', '!'] ⟨[], [], false⟩))).content
        = (['H', 'i', '!'] : List Char).take 2) :=
  ⟨by decide,
    renderStart_leaves_prior_timer ⟨[], [], false⟩ 1 2 ['H', 'i', '!']
      ['O', 'K'] (by decide)⟩

theorem blinkTick_isVisible (s : BlinkState) :
    (blinkTick s).isVisible = !s.isVisible := by
  unfold blinkTick
  by_cases hc : 120 < s.blinkCount + 1
  · rw [if_pos hc]
  · rw [if_neg hc]

theorem blinkTick_blinkCount (s : BlinkState) :
    (blinkTick s).blinkCount = s.blinkCount + 1 := by
  unfold blinkTick
  by_cases hc : 120 < s.blinkCount + 1
  · rw [if_pos hc]
  · rw [if_neg hc]

theorem blinkCount_iterate (n : Nat) :
    (blinkTick^[n] blinkInit).blinkCount = n := by
  induction n with
  | zero => rfl
  | succ n ih => rw [Function.iterate_succ_apply', blinkTick_blinkCount, ih]

theorem stopBlink_border (s : BlinkState) :
    (stopBlink s).border = Border.none := rfl

theorem stopBlink_blinkCount (s : BlinkState) :
    (stopBlink s).blinkCount = s.blinkCount := rfl

theorem blinkStateAt_of_ge (t : Nat) (h : 30000 ≤ t) :
    blinkStateAt t = stopBlink (blinkTick^[60] blinkInit) := by
  unfold blinkStateAt
  have h60 : 60 ≤ t / 500 := (Nat.le_div_iff_mul_le (by norm_num)).mpr (by omega)
  have ht : min (t / 500) 60 = 60 := by omega
  rw [ht, if_pos h]

/-- C9: once the reveal index reaches the text length the renderer starts
the blink phase; each interval tick toggles the visibility flag (the
ticks run every 500 ms); and the blinking always stops — border cleared
and no further state change — from 30000 ms of wall-clock time onwards,
at which point 60 toggles (under the 120-toggle ceiling) have run. -/
theorem blink_toggles_and_stops (t : Nat) (h : 30000 ≤ t) :
    (∀ sid text s, (typeNextCharStep sid text text.length s).blinkStarted
        = true) ∧
    (∀ k, (blinkTick^[k + 1] blinkInit).isVisible
        = !(blinkTick^[k] blinkInit).isVisible) ∧
    blinkStateAt t = blinkStateAt 30000 ∧
    (blinkStateAt t).border = Border.none ∧
    (blinkStateAt 30000).blinkCount = 60 := by
  have hstop := blinkStateAt_of_ge t h
  have hstop30 := blinkStateAt_of_ge 30000 (by norm_num)
  refine ⟨?_, ?_, ?_, ?_, ?_⟩
  · intro sid text s
    unfold typeNextCharStep
    rw [if_neg (by omega : ¬ text.length < text.length)]
  · intro k
    rw [Function.iterate_succ_apply']
    exact blinkTick_isVisible _
  · rw [hstop, hstop30]
  · rw [hstop, stopBlink_border]
  · rw [hstop30, stopBlink_blinkCount]
    exact blinkCount_iterate 60

theorem blink_toggles_and_stops_witness :
    (30000 ≤ 31000 ∧ (blinkStateAt 31000).border = Border.none) :=
  ⟨by norm_num, (blink_toggles_and_stops 31000 (by norm_num)).2.2.2.1⟩
